import Mathlib

/-!
Verification of the live-transcription core of this repository
(`src/whisper_timestamped/live.py`): the audio ring buffer, the dedup
emitter, the inference-loop iteration, the capture hand-off queue, and
the audio-writer loop.  Audio samples (float32 in the source) are
modelled as rationals; times (Python floats) are modelled as rationals.
-/

namespace WhisperLive

set_option maxRecDepth 8000

/-- One contiguous numpy slice assignment `l[i : i + len(data)] = data`
(used by `RingBuffer.append`; callers guarantee `i + len(data) ≤ len(l)`). -/
def writeSlice (l : List ℚ) (i : Nat) (data : List ℚ) : List ℚ :=
  l.take i ++ data ++ l.drop (i + data.length)

/-- State of `RingBuffer` from live.py (`__init__`): `capacity` samples of
backing storage, a write cursor and a current size.  The `threading.Lock`
only serializes `append`/`get_last`; the sequential semantics modelled here
is the behaviour of each (atomic) operation. -/
structure RingBuffer where
  capacity : Nat
  buffer : List ℚ
  write_pos : Nat
  size : Nat
deriving DecidableEq

/-- `RingBuffer.__init__(capacity_samples)`: zeroed storage, cursor 0, size 0. -/
def RingBuffer.new (capacity_samples : Nat) : RingBuffer :=
  { capacity := capacity_samples
    buffer := List.replicate capacity_samples 0
    write_pos := 0
    size := 0 }

/-- `RingBuffer.append(data)` from live.py: if `len(data) ≥ capacity` keep only
the last `capacity` samples of `data`; otherwise write at the cursor with
wraparound, advance the cursor mod capacity, and grow `size` up to capacity. -/
def RingBuffer.append (rb : RingBuffer) (data : List ℚ) : RingBuffer :=
  let n := data.length
  if rb.capacity ≤ n then
    { rb with buffer := data.drop (n - rb.capacity), write_pos := 0, size := rb.capacity }
  else
    let e := rb.write_pos + n
    let buffer1 :=
      if e ≤ rb.capacity then
        writeSlice rb.buffer rb.write_pos data
      else
        let split := rb.capacity - rb.write_pos
        writeSlice (writeSlice rb.buffer rb.write_pos (data.take split)) 0 (data.drop split)
    { rb with buffer := buffer1
              write_pos := (rb.write_pos + n) % rb.capacity
              size := min rb.capacity (rb.size + n) }

/-- `RingBuffer.get_last(n_samples)` from live.py: return the most recent
`min(n_samples, size)` samples in temporal order (empty when none), reading
backwards from the write cursor with wraparound.  Python's `%` on a possibly
negative left operand is `Int.emod`. -/
def RingBuffer.get_last (rb : RingBuffer) (n_samples : Nat) : List ℚ :=
  let n := min n_samples rb.size
  if n = 0 then []
  else
    let start := (((rb.write_pos : Int) - (n : Int)) % (rb.capacity : Int)).toNat
    if start + n ≤ rb.capacity then
      (rb.buffer.drop start).take n
    else
      let split := rb.capacity - start
      rb.buffer.drop start ++ rb.buffer.take (n - split)

/-- A whole history of appends, in order. -/
def RingBuffer.appendAll (rb : RingBuffer) : List (List ℚ) → RingBuffer
  | [] => rb
  | d :: ds => (rb.append d).appendAll ds

/-- The last `k` elements of a list (all of it when `k ≥ length`). -/
def lastN (l : List ℚ) (k : Nat) : List ℚ := l.drop (l.length - k)

/-- The backing storage rotated so that the write cursor comes first; its
suffix of length `size` is the buffered audio in temporal order. -/
def RingBuffer.rotView (rb : RingBuffer) : List ℚ :=
  rb.buffer.drop rb.write_pos ++ rb.buffer.take rb.write_pos

/-- Structural well-formedness maintained by every `RingBuffer` operation. -/
def RingBuffer.wf (rb : RingBuffer) : Prop :=
  rb.buffer.length = rb.capacity ∧ rb.write_pos < rb.capacity ∧ rb.size ≤ rb.capacity

/-- Python `str.strip()`: remove leading and trailing whitespace.  (Stated
structurally over the character list so that it evaluates by kernel
reduction; `String.trim` is extensionally the same but does not reduce.) -/
def pyStrip (s : String) : String :=
  String.mk (((s.toList.dropWhile Char.isWhitespace).reverse.dropWhile
    Char.isWhitespace).reverse)

/-- A word of an engine segment (the `w` of live.py line 256: `faster_whisper`
word objects carry `word`, window-relative `start`/`end` seconds and a
`probability`).  The Python float times are modelled as rationals; the field
`end_` models the attribute `end`. -/
structure SegWord where
  word : String
  start : ℚ
  end_ : ℚ
  probability : Option ℚ
deriving DecidableEq

/-- An engine segment (`faster_whisper.transcribe.Segment`): window-relative
`start`/`end`, `text`, and the word list.  `words = []` models Python `None`
as well as an empty list — both are falsy in
`if getattr(seg, "words", None):` (live.py line 255). -/
structure Segment where
  start : ℚ
  end_ : ℚ
  text : String
  words : List SegWord
deriving DecidableEq

/-- An entry of the `words` list of an emission dict (live.py lines 261–268
and line 275; in the segment-level fallback the `probability` key is absent,
modelled as `none`). -/
structure EmittedWord where
  text : String
  start : ℚ
  end_ : ℚ
  probability : Option ℚ
deriving DecidableEq

instance : Inhabited EmittedWord := ⟨⟨"", 0, 0, none⟩⟩

/-- The emitted-word dict built for a surviving word (live.py lines 261–268):
session-relative times are the window-relative ones shifted by
`window_start_abs_sec`. -/
def emitWord (w0 : ℚ) (w : SegWord) : EmittedWord :=
  ⟨w.word, w0 + w.start, w0 + w.end_, w.probability⟩

/-- An emission dict (live.py lines 284–291).  `_relative_to_absolute` renders
`recording_start_time + timedelta(seconds=rel)` as an ISO string; the
wall-clock instant is modelled as the rational `recordingStart + rel`. -/
structure Emission where
  text : String
  start : ℚ
  end_ : ℚ
  absolute_start : ℚ
  absolute_end : ℚ
  words : List EmittedWord
deriving DecidableEq

/-- The per-word loop of the Dedup Emitter (live.py lines 256–270): walk the
segment's words in order, skip any word whose session-relative end
`w0 + w.end` is ≤ `last_emitted_time + 0.02`, append the survivors to
`new_words`, and raise `max_new_end` to each emitted end.  `t` is
`self._last_emitted_time` (not reassigned during the loop), `acc` is
`new_words`, `m` is `max_new_end`. -/
def collectGo (w0 t : ℚ) (acc : List EmittedWord) (m : ℚ) :
    List SegWord → List EmittedWord × ℚ
  | [] => (acc, m)
  | w :: ws =>
    if w0 + w.end_ ≤ t + 0.02 then collectGo w0 t acc m ws
    else
      collectGo w0 t (acc ++ [⟨w.word, w0 + w.start, w0 + w.end_, w.probability⟩])
        (if m < w0 + w.end_ then w0 + w.end_ else m) ws

/-- The word-selection step of the Dedup Emitter for one segment:
`new_words` starts empty and `max_new_end` starts at `self._last_emitted_time`
(live.py lines 253–254). -/
def collectNewWords (w0 t : ℚ) (ws : List SegWord) : List EmittedWord × ℚ :=
  collectGo w0 t [] t ws

/-- One iteration of the segment loop of the Dedup Emitter (live.py lines
248–293): returns the updated `_last_emitted_time` together with the emission
dict appended to `new_emissions` for this segment, if any.  `r` models
`recording_start_time`, `w0` is `window_start_abs_sec`, `t` is
`_last_emitted_time` on entry. -/
def processSegment (r w0 t : ℚ) (seg : Segment) : ℚ × Option Emission :=
  let seg_start := w0 + max 0 seg.start
  let seg_end := w0 + max 0 seg.end_
  let nwm :=
    match seg.words with
    | _ :: _ => collectNewWords w0 t seg.words
    | [] =>
      if seg_end ≤ t + 0.02 then ([], t)
      else ([⟨pyStrip seg.text, seg_start, seg_end, none⟩], max t seg_end)
  match nwm with
  | ([], _) => (t, none)
  | (ww :: rest, max_new_end) =>
    (max_new_end, some
      { text := pyStrip (String.intercalate " " ((ww :: rest).map EmittedWord.text))
        start := ww.start
        end_ := (rest.getLastD ww).end_
        absolute_start := r + ww.start
        absolute_end := r + (rest.getLastD ww).end_
        words := ww :: rest })

/-- The whole segment loop for one inference result (live.py lines 247–296):
fold `processSegment` over the returned segments in order, collecting
`new_emissions`. -/
def processResult (r w0 t : ℚ) : List Segment → ℚ × List Emission
  | [] => (t, [])
  | seg :: rest =>
    match processSegment r w0 t seg with
    | (t1, none) => processResult r w0 t1 rest
    | (t1, some e) =>
      match processResult r w0 t1 rest with
      | (t2, es) => (t2, e :: es)

/-- A failure of `model.transcribe`: Python's `TypeError` (rejected keyword
argument) versus any other exception. -/
inductive TranscribeFailure
  | typeErr
  | otherErr
deriving DecidableEq

/-- The keyword arguments of a `model.transcribe` call; `none` means the
keyword is not passed. -/
structure TranscribeArgs where
  language : Option String
  beam_size : Nat
  vad_filter : Bool
  temperature : ℚ
  word_timestamps : Bool
  no_speech_threshold : Option ℚ
  condition_on_previous_text : Option Bool
deriving DecidableEq

/-- The fields of `LiveConfig` that `_transcriber_loop` reads. -/
structure LiveConfig where
  language : Option String
  beam_size : Nat
  vad_filter : Bool
  chunk_length_s : ℚ
  step_s : ℚ
  sample_rate : Nat
  word_timestamps : Bool
  no_speech_threshold : ℚ
  temperature : ℚ
deriving DecidableEq

/-- The kwargs of the first `model.transcribe` call (live.py lines 221–230). -/
def fullArgs (cfg : LiveConfig) : TranscribeArgs :=
  { language := cfg.language
    beam_size := cfg.beam_size
    vad_filter := cfg.vad_filter
    temperature := cfg.temperature
    word_timestamps := cfg.word_timestamps
    no_speech_threshold := some cfg.no_speech_threshold
    condition_on_previous_text := some true }

/-- The reduced kwargs of the retry after a `TypeError`
(live.py lines 234–241): `no_speech_threshold` and
`condition_on_previous_text` are dropped. -/
def reducedArgs (cfg : LiveConfig) : TranscribeArgs :=
  { language := cfg.language
    beam_size := cfg.beam_size
    vad_filter := cfg.vad_filter
    temperature := cfg.temperature
    word_timestamps := cfg.word_timestamps
    no_speech_threshold := none
    condition_on_previous_text := none }

/-- The external inference engine as a black box: given the audio window and a
kwarg set, it returns segments or raises. -/
def Engine : Type :=
  List ℚ → TranscribeArgs → Except TranscribeFailure (List Segment)

/-- The try/except structure around the engine call (live.py lines 220–245):
on `TypeError` retry exactly once with the reduced kwargs; any other failure,
or a failing retry, skips the iteration (`continue`, i.e. `none`). -/
def runInference (engine : Engine) (cfg : LiveConfig) (audio : List ℚ) :
    Option (List Segment) :=
  match engine audio (fullArgs cfg) with
  | .ok segs => some segs
  | .error .typeErr =>
    match engine audio (reducedArgs cfg) with
    | .ok segs => some segs
    | .error _ => none
  | .error .otherErr => none

/-- `window = int(self.cfg.chunk_length_s * sample_rate)` (live.py line 197);
`int()` of the nonnegative product is its floor. -/
def windowSamples (cfg : LiveConfig) : Nat :=
  ⌊cfg.chunk_length_s * (cfg.sample_rate : ℚ)⌋.toNat

/-- `window_start_abs_sec = max(0.0, (samples_written - len(audio)) / sample_rate)`
(live.py line 216). -/
def windowStartAbsSec (samples_written audioLen sample_rate : Nat) : ℚ :=
  max 0 (((samples_written : ℚ) - (audioLen : ℚ)) / (sample_rate : ℚ))

/-- One iteration of `_transcriber_loop` past the pacing check (live.py lines
209–296), as a function of the `samples_written` snapshot, the audio returned
by `self._ring.get_last(window)`, and the engine: yields the updated
`_last_emitted_time` and the list handed to `_emit` (empty = nothing emitted,
as `_emit` is only called when `new_emissions` is non-empty). -/
def transcriberIteration (engine : Engine) (cfg : LiveConfig) (r t : ℚ)
    (samples_written : Nat) (audio : List ℚ) : ℚ × List Emission :=
  if audio.length < windowSamples cfg / 2 then (t, [])
  else
    match runInference engine cfg audio with
    | none => (t, [])
    | some segs =>
      processResult r (windowStartAbsSec samples_written audio.length cfg.sample_rate) t segs

/-- `self._audio_q = queue.Queue(maxsize=50)` (live.py line 117). -/
def audioQueueMaxsize : Nat := 50

/-- `_audio_callback` (live.py lines 149–158) for a mono block: `put_nowait`
onto the bounded queue, and `except queue.Full: pass` — when the queue holds
`maxsize` blocks the new block is silently dropped.  (Python's `put_nowait`
raises `queue.Full` exactly when `qsize() ≥ maxsize`.) -/
def audio_callback (q : List (List ℚ)) (mono : List ℚ) : List (List ℚ) :=
  if audioQueueMaxsize ≤ q.length then q else q ++ [mono]

/-- A stalled-consumer burst: the callback fires once per arriving block while
the consumer never runs. -/
def captureBlocks (q : List (List ℚ)) (blocks : List (List ℚ)) : List (List ℚ) :=
  blocks.foldl audio_callback q

/-- An event at the hand-off queue: a block arriving on the capture callback,
or the writer thread taking one block (a take on an empty queue blocks and
receives nothing). -/
inductive QEvent
  | arrive (block : List ℚ)
  | consume

/-- FIFO queue semantics with the drop-on-full producer: the state is
(queue contents, blocks received by the consumer so far). -/
def queueStep (st : List (List ℚ) × List (List ℚ)) :
    QEvent → List (List ℚ) × List (List ℚ)
  | .arrive b => (audio_callback st.1 b, st.2)
  | .consume =>
    match st.1 with
    | [] => st
    | x :: rest => (rest, st.2 ++ [x])

/-- Run a trace of arrivals and consumptions from an empty queue. -/
def queueRun (evs : List QEvent) : List (List ℚ) × List (List ℚ) :=
  evs.foldl queueStep ([], [])

/-- The blocks offered by the capture callback during a trace, in arrival
order. -/
def arrivals (evs : List QEvent) : List (List ℚ) :=
  evs.filterMap fun ev => match ev with
    | .arrive b => some b
    | .consume => none

/-- State of the Buffer Writer thread (`_audio_writer`): the ring buffer, the
wav-file flag (`self._wav_file is not None`), and `self._samples_written`. -/
structure WriterState where
  ring : RingBuffer
  wav_open : Bool
  samples_written : Nat
deriving DecidableEq

/-- One iteration of `_audio_writer`'s drain loop after a block is received
(live.py lines 171–176): append to the ring, then write to the wav file,
then update `_samples_written`.  The wav write is NOT wrapped in a
try/except: a raised exception propagates out of the iteration (flag `true`)
after the ring append but before `_samples_written` is updated.
`wavWrite` models `self._wav_file.write`, with `Except.error` an OS error. -/
def audioWriterStep (wavWrite : List ℚ → Except String Unit) (st : WriterState)
    (data : List ℚ) : WriterState × Bool :=
  let st1 := { st with ring := st.ring.append data }
  if st.wav_open then
    match wavWrite data with
    | .error _ => (st1, true)
    | .ok _ => ({ st1 with samples_written := st.samples_written + data.length }, false)
  else ({ st1 with samples_written := st.samples_written + data.length }, false)

/-- The writer loop over a sequence of received blocks: an uncaught exception
ends the loop (and with it the writer thread), leaving the remaining blocks
unprocessed. -/
def audioWriterRun (wavWrite : List ℚ → Except String Unit) (st : WriterState) :
    List (List ℚ) → WriterState × Bool
  | [] => (st, false)
  | d :: ds =>
    match audioWriterStep wavWrite st d with
    | (st1, true) => (st1, true)
    | (st1, false) => audioWriterRun wavWrite st1 ds

theorem length_writeSlice (l d : List ℚ) (i : Nat) (h : i + d.length ≤ l.length) :
    (writeSlice l i d).length = l.length := by
  simp only [writeSlice, List.length_append, List.length_take, List.length_drop]
  omega

theorem RingBuffer.rotView_length (rb : RingBuffer) (h : rb.buffer.length = rb.capacity) :
    rb.rotView.length = rb.capacity := by
  simp only [RingBuffer.rotView, List.length_append, List.length_take, List.length_drop]
  omega

theorem RingBuffer.append_of_ge (rb : RingBuffer) (d : List ℚ) (h : rb.capacity ≤ d.length) :
    rb.append d =
      { rb with buffer := d.drop (d.length - rb.capacity), write_pos := 0,
                size := rb.capacity } := by
  simp [RingBuffer.append, h]

theorem RingBuffer.append_of_le (rb : RingBuffer) (d : List ℚ)
    (h1 : d.length < rb.capacity) (h2 : rb.write_pos + d.length ≤ rb.capacity) :
    rb.append d =
      { rb with buffer := writeSlice rb.buffer rb.write_pos d,
                write_pos := (rb.write_pos + d.length) % rb.capacity,
                size := min rb.capacity (rb.size + d.length) } := by
  simp [RingBuffer.append, Nat.not_le.mpr h1, h2]

theorem RingBuffer.append_of_wrap (rb : RingBuffer) (d : List ℚ)
    (h1 : d.length < rb.capacity) (h2 : rb.capacity < rb.write_pos + d.length) :
    rb.append d =
      { rb with
        buffer := writeSlice
          (writeSlice rb.buffer rb.write_pos (d.take (rb.capacity - rb.write_pos))) 0
          (d.drop (rb.capacity - rb.write_pos)),
        write_pos := (rb.write_pos + d.length) % rb.capacity,
        size := min rb.capacity (rb.size + d.length) } := by
  simp [RingBuffer.append, Nat.not_le.mpr h1, Nat.not_le.mpr h2]

theorem RingBuffer.wf_append (rb : RingBuffer) (d : List ℚ) (h : rb.wf) : (rb.append d).wf := by
  obtain ⟨hB, hp, hs⟩ := h
  by_cases h1 : rb.capacity ≤ d.length
  · rw [rb.append_of_ge d h1]
    refine ⟨?_, ?_, ?_⟩ <;> simp [List.length_drop] <;> omega
  · push_neg at h1
    by_cases h2 : rb.write_pos + d.length ≤ rb.capacity
    · rw [rb.append_of_le d h1 h2]
      refine ⟨?_, Nat.mod_lt _ (by omega), by simp⟩
      show (writeSlice rb.buffer rb.write_pos d).length = rb.capacity
      rw [length_writeSlice _ _ _ (by omega)]
      exact hB
    · push_neg at h2
      rw [rb.append_of_wrap d h1 (by omega)]
      refine ⟨?_, Nat.mod_lt _ (by omega), by simp⟩
      have hinner : (writeSlice rb.buffer rb.write_pos
          (d.take (rb.capacity - rb.write_pos))).length = rb.capacity := by
        rw [length_writeSlice _ _ _ (by simp [List.length_take]; omega), hB]
      simp only
      rw [length_writeSlice _ _ _ (by simp [List.length_drop, hinner]; omega), hinner]

theorem RingBuffer.size_append (rb : RingBuffer) (d : List ℚ) (h : rb.wf) :
    (rb.append d).size = min rb.capacity (rb.size + d.length) := by
  obtain ⟨hB, hp, hs⟩ := h
  by_cases h1 : rb.capacity ≤ d.length
  · rw [rb.append_of_ge d h1]; simp; omega
  · push_neg at h1
    by_cases h2 : rb.write_pos + d.length ≤ rb.capacity
    · rw [rb.append_of_le d h1 h2]
    · rw [rb.append_of_wrap d h1 (by omega)]

theorem rot_shift_mid (B d : List ℚ) (p : Nat) (hp : p < B.length)
    (h2 : p + d.length ≤ B.length) :
    (B.take p ++ d ++ B.drop (p + d.length)).drop ((p + d.length) % B.length)
      ++ (B.take p ++ d ++ B.drop (p + d.length)).take ((p + d.length) % B.length)
    = (B.drop p ++ B.take p ++ d).drop d.length := by
  have hlen : (B.take p ++ d).length = p + d.length := by
    simp [List.length_take]; omega
  rcases Nat.lt_or_ge (p + d.length) B.length with h3 | h3
  · rw [Nat.mod_eq_of_lt h3, List.drop_left' hlen, List.take_left' hlen]
    conv_rhs => rw [List.append_assoc,
      List.drop_append_of_le_length (by simp [List.length_drop]; omega), List.drop_drop]
  · have h4 : p + d.length = B.length := by omega
    rw [h4, Nat.mod_self, List.drop_length, List.append_nil, List.drop_zero, List.take_zero,
        List.append_nil]
    conv_rhs => rw [List.append_assoc,
      List.drop_append_of_le_length (by simp [List.length_drop]; omega),
      List.drop_eq_nil_of_le (by simp [List.length_drop]; omega), List.nil_append]

theorem rot_shift_wrap (B d : List ℚ) (p : Nat) (hp : p < B.length) (h1 : d.length < B.length)
    (h2 : B.length < p + d.length) :
    (writeSlice (writeSlice B p (d.take (B.length - p))) 0 (d.drop (B.length - p))).drop
        ((p + d.length) % B.length)
      ++ (writeSlice (writeSlice B p (d.take (B.length - p))) 0 (d.drop (B.length - p))).take
        ((p + d.length) % B.length)
    = (B.drop p ++ B.take p ++ d).drop d.length := by
  have hsplit : B.length - p < d.length := by omega
  have htl : (d.take (B.length - p)).length = B.length - p := by
    simp [List.length_take]; omega
  have hdl : (d.drop (B.length - p)).length = d.length - (B.length - p) := by
    simp [List.length_drop]
  have hW : writeSlice B p (d.take (B.length - p)) = B.take p ++ d.take (B.length - p) := by
    unfold writeSlice
    rw [htl]
    have hpc : p + (B.length - p) = B.length := by omega
    rw [hpc, List.drop_length, List.append_nil]
  have hOuter : writeSlice (B.take p ++ d.take (B.length - p)) 0 (d.drop (B.length - p))
      = d.drop (B.length - p)
        ++ ((B.take p).drop (d.length - (B.length - p)) ++ d.take (B.length - p)) := by
    unfold writeSlice
    rw [List.take_zero, List.nil_append, hdl, Nat.zero_add,
        List.drop_append_of_le_length (by simp [List.length_take]; omega)]
  have hmod : (p + d.length) % B.length = d.length - (B.length - p) := by
    rw [Nat.mod_eq_sub_mod (by omega), Nat.mod_eq_of_lt (by omega)]
    omega
  rw [hW, hOuter, hmod, List.drop_left' hdl, List.take_left' hdl, List.append_assoc,
      List.take_append_drop]
  conv_rhs => rw [
    List.drop_append_of_le_length
      (by simp [List.length_append, List.length_take, List.length_drop]; omega),
    List.drop_append_eq_append_drop, List.drop_eq_nil_of_le (by simp [List.length_drop]; omega),
    List.nil_append, List.length_drop]

theorem RingBuffer.rotView_append (rb : RingBuffer) (d : List ℚ) (h : rb.wf) :
    (rb.append d).rotView = (rb.rotView ++ d).drop d.length := by
  obtain ⟨hB, hp, hs⟩ := h
  by_cases h1 : rb.capacity ≤ d.length
  · rw [rb.append_of_ge d h1]
    conv_lhs => simp [RingBuffer.rotView]
    conv_rhs => rw [List.drop_append_eq_append_drop,
      List.drop_eq_nil_of_le (show rb.rotView.length ≤ d.length by
        rw [rb.rotView_length hB]; exact h1),
      List.nil_append, rb.rotView_length hB]
  · push_neg at h1
    by_cases h2 : rb.write_pos + d.length ≤ rb.capacity
    · rw [rb.append_of_le d h1 h2]
      simp only [RingBuffer.rotView, writeSlice]
      rw [← hB]
      exact rot_shift_mid rb.buffer d rb.write_pos (by omega) (by omega)
    · push_neg at h2
      rw [rb.append_of_wrap d h1 (by omega)]
      simp only [RingBuffer.rotView]
      rw [← hB]
      exact rot_shift_wrap rb.buffer d rb.write_pos (by omega) (by omega) (by omega)

theorem RingBuffer.capacity_append (rb : RingBuffer) (d : List ℚ) :
    (rb.append d).capacity = rb.capacity := by
  unfold RingBuffer.append
  by_cases h1 : rb.capacity ≤ d.length
  · simp [h1]
  · simp only [if_neg h1]

/-- The buffer state is an implementation of: "hold the most recent
`min capacity H.length` samples of the append history `H`, in order". -/
def RingBuffer.abstracts (rb : RingBuffer) (H : List ℚ) : Prop :=
  rb.wf ∧ rb.size = min rb.capacity H.length ∧
    rb.rotView.drop (rb.capacity - rb.size) = H.drop (H.length - rb.size)

theorem RingBuffer.abstracts_new (cap : Nat) (hcap : 0 < cap) :
    (RingBuffer.new cap).abstracts [] := by
  refine ⟨⟨by simp [RingBuffer.new], by simpa [RingBuffer.new] using hcap,
    by simp [RingBuffer.new]⟩, by simp [RingBuffer.new], ?_⟩
  simp [RingBuffer.new, RingBuffer.rotView]

theorem RingBuffer.abstracts_append (rb : RingBuffer) (H : List ℚ) (d : List ℚ)
    (h : rb.abstracts H) : (rb.append d).abstracts (H ++ d) := by
  obtain ⟨hwf, hsize, hinv⟩ := h
  obtain ⟨hB, hp, hs⟩ := hwf
  have hwf0 : rb.wf := ⟨hB, hp, hs⟩
  have hV : rb.rotView.length = rb.capacity := rb.rotView_length hB
  have hsH : rb.size ≤ H.length := by omega
  refine ⟨rb.wf_append d hwf0, ?_, ?_⟩
  · rw [rb.size_append d hwf0, rb.capacity_append d, List.length_append]
    omega
  · rw [rb.rotView_append d hwf0, rb.capacity_append d, rb.size_append d hwf0,
        List.length_append, List.drop_drop]
    by_cases hc : rb.size + d.length ≤ rb.capacity
    · have e1 : d.length + (rb.capacity - min rb.capacity (rb.size + d.length))
          = rb.capacity - rb.size := by omega
      have e2 : H.length + d.length - min rb.capacity (rb.size + d.length)
          = H.length - rb.size := by omega
      rw [e1, e2, List.drop_append_of_le_length (by rw [hV]; omega),
          List.drop_append_of_le_length (by omega), hinv]
    · push_neg at hc
      have e1 : d.length + (rb.capacity - min rb.capacity (rb.size + d.length))
          = d.length := by omega
      have e2 : H.length + d.length - min rb.capacity (rb.size + d.length)
          = H.length + d.length - rb.capacity := by omega
      rw [e1, e2]
      by_cases hn : rb.capacity ≤ d.length
      · conv_lhs => rw [List.drop_append_eq_append_drop,
          List.drop_eq_nil_of_le (by rw [hV]; omega), List.nil_append, hV]
        conv_rhs => rw [List.drop_append_eq_append_drop,
          List.drop_eq_nil_of_le (by omega), List.nil_append]
        congr 1
        omega
      · push_neg at hn
        have hsplit : (rb.rotView.drop (rb.capacity - rb.size)).drop
            (d.length - (rb.capacity - rb.size)) = rb.rotView.drop d.length := by
          rw [List.drop_drop]
          congr 1
          omega
        conv_lhs => rw [List.drop_append_of_le_length (by rw [hV]; omega), ← hsplit, hinv,
          List.drop_drop]
        conv_rhs => rw [List.drop_append_of_le_length (by omega)]
        congr 2
        omega

theorem RingBuffer.get_last_rotView (rb : RingBuffer) (h : rb.wf) (k : Nat) :
    rb.get_last k = rb.rotView.drop (rb.capacity - min k rb.size) := by
  obtain ⟨hB, hp, hs⟩ := h
  have hV : rb.rotView.length = rb.capacity := rb.rotView_length hB
  simp only [RingBuffer.get_last]
  by_cases h0 : min k rb.size = 0
  · rw [if_pos h0, h0, Nat.sub_zero]
    exact (List.drop_eq_nil_of_le (by rw [hV])).symm
  · rw [if_neg h0]
    rcases le_or_lt (min k rb.size) rb.write_pos with hpn | hpn
    · -- reading without wraparound, strictly behind the cursor
      have hstart : (((rb.write_pos : Int) - ((min k rb.size : Nat) : Int))
          % (rb.capacity : Int)).toNat = rb.write_pos - min k rb.size := by
        rw [Int.emod_eq_of_lt (by omega) (by omega)]
        omega
      rw [hstart, if_pos (by omega)]
      conv_rhs => rw [RingBuffer.rotView, List.drop_append_eq_append_drop,
        List.drop_eq_nil_of_le (by simp [List.length_drop, hB]; omega), List.nil_append,
        List.length_drop, hB]
      have e1 : rb.capacity - min k rb.size - (rb.capacity - rb.write_pos)
          = rb.write_pos - min k rb.size := by omega
      rw [e1]
      conv_rhs => rw [List.drop_take]
      congr 1
      omega
    · -- the read wraps (or starts exactly at the cursor with a full buffer)
      have hstart : (((rb.write_pos : Int) - ((min k rb.size : Nat) : Int))
          % (rb.capacity : Int)).toNat = rb.write_pos + rb.capacity - min k rb.size := by
        have h1 := Int.add_mul_emod_self_left
          ((rb.write_pos : Int) - ((min k rb.size : Nat) : Int)) (rb.capacity : Int) 1
        rw [Int.mul_one] at h1
        rw [← h1, Int.emod_eq_of_lt (by omega) (by omega)]
        omega
      rw [hstart]
      by_cases hp0 : rb.write_pos = 0
      · rw [if_pos (by omega)]
        conv_rhs => rw [RingBuffer.rotView, hp0, List.drop_zero, List.take_zero,
          List.append_nil]
        rw [hp0, Nat.zero_add]
        exact List.take_of_length_le (by simp [List.length_drop, hB]; omega)
      · rw [if_neg (by omega)]
        conv_rhs => rw [RingBuffer.rotView,
          List.drop_append_of_le_length (by simp [List.length_drop, hB]; omega),
          List.drop_drop]
        have e1 : rb.write_pos + (rb.capacity - min k rb.size)
            = rb.write_pos + rb.capacity - min k rb.size := by omega
        rw [e1]
        have e2 : min k rb.size
            - (rb.capacity - (rb.write_pos + rb.capacity - min k rb.size))
            = rb.write_pos := by omega
        rw [e2]

theorem RingBuffer.get_last_abstracts (rb : RingBuffer) (H : List ℚ) (h : rb.abstracts H)
    (k : Nat) : rb.get_last k = H.drop (H.length - min k rb.size) := by
  obtain ⟨hwf, hsize, hinv⟩ := h
  obtain ⟨hB, hp, hs⟩ := hwf
  have hV : rb.rotView.length = rb.capacity := rb.rotView_length hB
  rw [rb.get_last_rotView ⟨hB, hp, hs⟩ k]
  have h1 : rb.capacity - min k rb.size
      = (rb.capacity - rb.size) + (rb.size - min k rb.size) := by omega
  have h2 : H.length - min k rb.size
      = (H.length - rb.size) + (rb.size - min k rb.size) := by omega
  rw [h1, h2, ← List.drop_drop, hinv, List.drop_drop, Nat.add_comm]

/-- Every state reachable by a sequence of appends from a fresh buffer
abstracts the concatenated history. -/
theorem RingBuffer.appendAll_abstracts (ds : List (List ℚ)) (rb : RingBuffer) (H : List ℚ)
    (h : rb.abstracts H) : (rb.appendAll ds).abstracts (H ++ ds.flatten) := by
  induction ds generalizing rb H with
  | nil => simpa [RingBuffer.appendAll] using h
  | cons d ds ih =>
    have h2 := ih (rb.append d) (H ++ d) (rb.abstracts_append H d h)
    simpa [RingBuffer.appendAll, List.append_assoc] using h2

theorem collectGo_snd_mono (w0 t : ℚ) :
    ∀ (ws : List SegWord) (acc : List EmittedWord) (m : ℚ),
    m ≤ (collectGo w0 t acc m ws).2 := by
  intro ws
  induction ws with
  | nil => intro acc m; simp [collectGo]
  | cons w ws ih =>
    intro acc m
    by_cases hc : w0 + w.end_ ≤ t + 0.02
    · rw [collectGo, if_pos hc]
      exact ih acc m
    · rw [collectGo, if_neg hc]
      refine le_trans ?_ (ih _ _)
      by_cases hm : m < w0 + w.end_
      · rw [if_pos hm]
        exact le_of_lt hm
      · rw [if_neg hm]

theorem collectGo_all_skip (w0 t : ℚ) :
    ∀ (ws : List SegWord) (acc : List EmittedWord) (m : ℚ),
    (∀ w ∈ ws, w0 + w.end_ ≤ t + 0.02) → collectGo w0 t acc m ws = (acc, m) := by
  intro ws
  induction ws with
  | nil => intro acc m _; rfl
  | cons w ws ih =>
    intro acc m h
    rw [collectGo, if_pos (h w (List.mem_cons_self w ws))]
    exact ih acc m fun x hx => h x (List.mem_cons_of_mem w hx)

theorem collectGo_end_bound (w0 t : ℚ) :
    ∀ (ws : List SegWord) (acc : List EmittedWord) (m : ℚ) (w : SegWord), w ∈ ws →
    w0 + w.end_ ≤ t + 0.02 ∨ w0 + w.end_ ≤ (collectGo w0 t acc m ws).2 := by
  intro ws
  induction ws with
  | nil => intro _ _ _ h; cases h
  | cons v ws ih =>
    intro acc m w hw
    rcases List.mem_cons.mp hw with rfl | hw2
    · by_cases hc : w0 + w.end_ ≤ t + 0.02
      · exact Or.inl hc
      · right
        rw [collectGo, if_neg hc]
        refine le_trans ?_ (collectGo_snd_mono w0 t ws _ _)
        by_cases hm : m < w0 + w.end_
        · rw [if_pos hm]
        · rw [if_neg hm]
          exact not_lt.mp hm
    · by_cases hc : w0 + v.end_ ≤ t + 0.02
      · rw [collectGo, if_pos hc]
        exact ih acc m w hw2
      · rw [collectGo, if_neg hc]
        exact ih _ _ w hw2

theorem collectGo_fst (w0 t : ℚ) :
    ∀ (ws : List SegWord) (acc : List EmittedWord) (m : ℚ),
    (collectGo w0 t acc m ws).1
      = acc ++ ((ws.filter fun w => !decide (w0 + w.end_ ≤ t + 0.02)).map (emitWord w0)) := by
  intro ws
  induction ws with
  | nil => intro acc m; simp [collectGo]
  | cons w ws ih =>
    intro acc m
    by_cases hc : w0 + w.end_ ≤ t + 0.02
    · rw [collectGo, if_pos hc, ih]
      simp [List.filter_cons, hc]
    · rw [collectGo, if_neg hc, ih]
      simp [List.filter_cons, hc, emitWord]

theorem collectGo_mem (w0 t : ℚ) :
    ∀ (ws : List SegWord) (acc : List EmittedWord) (m : ℚ) (x : EmittedWord),
    x ∈ (collectGo w0 t acc m ws).1 →
    x ∈ acc ∨ (t + 0.02 < x.end_ ∧ x.end_ ≤ (collectGo w0 t acc m ws).2) := by
  intro ws
  induction ws with
  | nil =>
    intro acc m x hx
    exact Or.inl (by simpa [collectGo] using hx)
  | cons w ws ih =>
    intro acc m x hx
    by_cases hc : w0 + w.end_ ≤ t + 0.02
    · rw [collectGo, if_pos hc] at hx ⊢
      exact ih acc m x hx
    · rw [collectGo, if_neg hc] at hx ⊢
      rcases ih _ _ x hx with hmem | hbound
      · rcases List.mem_append.mp hmem with h1 | h2
        · exact Or.inl h1
        · right
          have hx2 : x = ⟨w.word, w0 + w.start, w0 + w.end_, w.probability⟩ := by
            simpa using h2
          subst hx2
          constructor
          · exact lt_of_not_le hc
          · refine le_trans ?_ (collectGo_snd_mono w0 t ws _ _)
            by_cases hm : m < w0 + w.end_
            · rw [if_pos hm]
            · rw [if_neg hm]
              exact not_lt.mp hm
      · exact Or.inr hbound

theorem processSegment_nil_skip (r w0 t : ℚ) (seg : Segment) (hw : seg.words = [])
    (hend : w0 + max 0 seg.end_ ≤ t + 0.02) :
    processSegment r w0 t seg = (t, none) := by
  unfold processSegment
  rw [hw]
  simp [hend]

theorem processSegment_nil_emit (r w0 t : ℚ) (seg : Segment) (hw : seg.words = [])
    (hend : ¬ w0 + max 0 seg.end_ ≤ t + 0.02) :
    processSegment r w0 t seg =
      (max t (w0 + max 0 seg.end_), some
        { text := pyStrip (String.intercalate " " [pyStrip seg.text])
          start := w0 + max 0 seg.start
          end_ := w0 + max 0 seg.end_
          absolute_start := r + (w0 + max 0 seg.start)
          absolute_end := r + (w0 + max 0 seg.end_)
          words := [⟨pyStrip seg.text, w0 + max 0 seg.start, w0 + max 0 seg.end_, none⟩] }) := by
  unfold processSegment
  rw [hw]
  simp [hend]

theorem processSegment_words_skip (r w0 t : ℚ) (seg : Segment) (hw : seg.words ≠ [])
    (hnw : (collectNewWords w0 t seg.words).1 = []) :
    processSegment r w0 t seg = (t, none) := by
  have hpair : collectNewWords w0 t seg.words
      = ([], (collectNewWords w0 t seg.words).2) := Prod.ext hnw rfl
  cases hsw : seg.words with
  | nil => exact absurd hsw hw
  | cons w ws =>
    rw [hsw] at hpair
    unfold processSegment
    rw [hsw]
    conv_lhs => rw [hpair]

theorem processSegment_words_emit (r w0 t : ℚ) (seg : Segment) (hw : seg.words ≠ [])
    (ww : EmittedWord) (rest : List EmittedWord)
    (hnw : (collectNewWords w0 t seg.words).1 = ww :: rest) :
    processSegment r w0 t seg =
      ((collectNewWords w0 t seg.words).2, some
        { text := pyStrip (String.intercalate " " ((ww :: rest).map EmittedWord.text))
          start := ww.start
          end_ := (rest.getLastD ww).end_
          absolute_start := r + ww.start
          absolute_end := r + (rest.getLastD ww).end_
          words := ww :: rest }) := by
  have hpair : collectNewWords w0 t seg.words
      = (ww :: rest, (collectNewWords w0 t seg.words).2) := Prod.ext hnw rfl
  cases hsw : seg.words with
  | nil => exact absurd hsw hw
  | cons w ws =>
    rw [hsw] at hpair
    unfold processSegment
    rw [hsw]
    conv_lhs => rw [hpair]

theorem processSegment_fst_mono (r w0 t : ℚ) (seg : Segment) :
    t ≤ (processSegment r w0 t seg).1 := by
  by_cases hw : seg.words = []
  · by_cases hend : w0 + max 0 seg.end_ ≤ t + 0.02
    · rw [processSegment_nil_skip r w0 t seg hw hend]
    · rw [processSegment_nil_emit r w0 t seg hw hend]
      exact le_max_left _ _
  · cases hnw : (collectNewWords w0 t seg.words).1 with
    | nil => rw [processSegment_words_skip r w0 t seg hw hnw]
    | cons ww rest =>
      rw [processSegment_words_emit r w0 t seg hw ww rest hnw]
      exact collectGo_snd_mono w0 t seg.words [] t

theorem processSegment_absorb (r w0 t u : ℚ) (seg : Segment)
    (h : (processSegment r w0 t seg).1 ≤ u) :
    processSegment r w0 u seg = (u, none) := by
  by_cases hw : seg.words = []
  · by_cases hend : w0 + max 0 seg.end_ ≤ t + 0.02
    · rw [processSegment_nil_skip r w0 t seg hw hend] at h
      exact processSegment_nil_skip r w0 u seg hw (by linarith)
    · rw [processSegment_nil_emit r w0 t seg hw hend] at h
      have h2 : w0 + max 0 seg.end_ ≤ u := le_trans (le_max_right _ _) h
      exact processSegment_nil_skip r w0 u seg hw (by linarith)
  · cases hnw : (collectNewWords w0 t seg.words).1 with
    | nil =>
      rw [processSegment_words_skip r w0 t seg hw hnw] at h
      have hfil : (seg.words.filter fun w => !decide (w0 + w.end_ ≤ t + 0.02)) = [] := by
        have hcg := collectGo_fst w0 t seg.words [] t
        rw [collectNewWords] at hnw
        rw [hnw, List.nil_append] at hcg
        exact (List.map_eq_nil_iff.mp hcg.symm)
      have hall : ∀ w ∈ seg.words, w0 + w.end_ ≤ u + 0.02 := by
        intro w hwmem
        by_cases hc : w0 + w.end_ ≤ t + 0.02
        · linarith
        · exfalso
          have hmem : w ∈ seg.words.filter fun w => !decide (w0 + w.end_ ≤ t + 0.02) :=
            List.mem_filter.mpr ⟨hwmem, by simpa using hc⟩
          rw [hfil] at hmem
          cases hmem
      apply processSegment_words_skip r w0 u seg hw
      rw [collectNewWords, collectGo_all_skip w0 u seg.words [] u hall]
    | cons ww rest =>
      rw [processSegment_words_emit r w0 t seg hw ww rest hnw] at h
      have hmono : t ≤ (collectNewWords w0 t seg.words).2 :=
        collectGo_snd_mono w0 t seg.words [] t
      have hall : ∀ w ∈ seg.words, w0 + w.end_ ≤ u + 0.02 := by
        intro w hwmem
        rcases collectGo_end_bound w0 t seg.words [] t w hwmem with h1 | h2
        · have hu : t ≤ u := le_trans hmono h
          linarith
        · have h3 : w0 + w.end_ ≤ u := le_trans h2 h
          linarith
      apply processSegment_words_skip r w0 u seg hw
      rw [collectNewWords, collectGo_all_skip w0 u seg.words [] u hall]

theorem processSegment_words_bound (r w0 t : ℚ) (seg : Segment) (t1 : ℚ) (e : Emission)
    (h : processSegment r w0 t seg = (t1, some e)) :
    ∀ x ∈ e.words, t + 0.02 < x.end_ ∧ x.end_ ≤ t1 := by
  by_cases hw : seg.words = []
  · by_cases hend : w0 + max 0 seg.end_ ≤ t + 0.02
    · rw [processSegment_nil_skip r w0 t seg hw hend] at h
      simp at h
    · rw [processSegment_nil_emit r w0 t seg hw hend] at h
      rw [Prod.mk.injEq, Option.some.injEq] at h
      obtain ⟨h1, h2⟩ := h
      intro x hx
      rw [← h2] at hx
      simp only [Emission.words] at hx
      have hx2 : x = ⟨pyStrip seg.text, w0 + max 0 seg.start, w0 + max 0 seg.end_, none⟩ := by
        simpa using hx
      subst hx2
      refine ⟨lt_of_not_le hend, ?_⟩
      rw [← h1]
      exact le_max_right _ _
  · cases hnw : (collectNewWords w0 t seg.words).1 with
    | nil =>
      rw [processSegment_words_skip r w0 t seg hw hnw] at h
      simp at h
    | cons ww rest =>
      rw [processSegment_words_emit r w0 t seg hw ww rest hnw] at h
      rw [Prod.mk.injEq, Option.some.injEq] at h
      obtain ⟨h1, h2⟩ := h
      intro x hx
      rw [← h2] at hx
      simp only [Emission.words] at hx
      have hx1 : x ∈ (collectGo w0 t [] t seg.words).1 := by
        rw [show (collectGo w0 t [] t seg.words).1 = ww :: rest from hnw]
        exact hx
      rcases collectGo_mem w0 t seg.words [] t x hx1 with habs | ⟨hgt, hle⟩
      · cases habs
      · exact ⟨hgt, h1 ▸ hle⟩

theorem processResult_cons_none (r w0 t : ℚ) (seg : Segment) (rest : List Segment)
    (t1 : ℚ) (h : processSegment r w0 t seg = (t1, none)) :
    processResult r w0 t (seg :: rest) = processResult r w0 t1 rest := by
  rw [processResult, h]

theorem processResult_cons_some (r w0 t : ℚ) (seg : Segment) (rest : List Segment)
    (t1 : ℚ) (e : Emission) (h : processSegment r w0 t seg = (t1, some e)) :
    processResult r w0 t (seg :: rest)
      = ((processResult r w0 t1 rest).1, e :: (processResult r w0 t1 rest).2) := by
  rw [processResult, h]

theorem processResult_fst_mono (r w0 : ℚ) :
    ∀ (segs : List Segment) (t : ℚ), t ≤ (processResult r w0 t segs).1 := by
  intro segs
  induction segs with
  | nil => intro t; exact le_refl t
  | cons seg rest ih =>
    intro t
    have hm := processSegment_fst_mono r w0 t seg
    cases hps : processSegment r w0 t seg with
    | mk t1 opt =>
      rw [hps] at hm
      cases opt with
      | none =>
        rw [processResult_cons_none r w0 t seg rest t1 hps]
        exact le_trans hm (ih t1)
      | some e =>
        rw [processResult_cons_some r w0 t seg rest t1 e hps]
        exact le_trans hm (ih t1)

theorem processResult_absorb (r w0 : ℚ) :
    ∀ (segs : List Segment) (t u : ℚ), (processResult r w0 t segs).1 ≤ u →
    processResult r w0 u segs = (u, []) := by
  intro segs
  induction segs with
  | nil => intro t u _; rfl
  | cons seg rest ih =>
    intro t u h
    cases hps : processSegment r w0 t seg with
    | mk t1 opt =>
      have hrest : (processResult r w0 t1 rest).1 ≤ u := by
        cases opt with
        | none => rw [processResult_cons_none r w0 t seg rest t1 hps] at h; exact h
        | some e => rw [processResult_cons_some r w0 t seg rest t1 e hps] at h; exact h
      have ht1 : (processSegment r w0 t seg).1 ≤ u := by
        rw [hps]
        exact le_trans (processResult_fst_mono r w0 rest t1) hrest
      rw [processResult_cons_none r w0 u seg rest u
        (processSegment_absorb r w0 t u seg ht1)]
      exact ih t1 u hrest

theorem processResult_mem_bound (r w0 : ℚ) :
    ∀ (segs : List Segment) (t : ℚ) (e : Emission), e ∈ (processResult r w0 t segs).2 →
    ∀ x ∈ e.words, t + 0.02 < x.end_ ∧ x.end_ ≤ (processResult r w0 t segs).1 := by
  intro segs
  induction segs with
  | nil =>
    intro t e he
    cases he
  | cons seg rest ih =>
    intro t e he x hx
    cases hps : processSegment r w0 t seg with
    | mk t1 opt =>
      have hm := processSegment_fst_mono r w0 t seg
      rw [hps] at hm
      cases opt with
      | none =>
        rw [processResult_cons_none r w0 t seg rest t1 hps] at he ⊢
        have := ih t1 e he x hx
        exact ⟨by linarith [this.1], this.2⟩
      | some e1 =>
        rw [processResult_cons_some r w0 t seg rest t1 e1 hps] at he ⊢
        have ht2 : t1 ≤ (processResult r w0 t1 rest).1 := processResult_fst_mono r w0 rest t1
        rcases List.mem_cons.mp he with rfl | hmem
        · have := processSegment_words_bound r w0 t seg t1 e hps x hx
          exact ⟨this.1, le_trans this.2 ht2⟩
        · have := ih t1 e hmem x hx
          exact ⟨by linarith [this.1], this.2⟩

theorem processResult_mem_shape (r w0 : ℚ) :
    ∀ (segs : List Segment) (t : ℚ) (e : Emission), e ∈ (processResult r w0 t segs).2 →
    ∃ t0 seg t1, seg ∈ segs ∧ processSegment r w0 t0 seg = (t1, some e) := by
  intro segs
  induction segs with
  | nil =>
    intro t e he
    cases he
  | cons seg rest ih =>
    intro t e he
    cases hps : processSegment r w0 t seg with
    | mk t1 opt =>
      cases opt with
      | none =>
        rw [processResult_cons_none r w0 t seg rest t1 hps] at he
        obtain ⟨t0, seg2, t2, hmem, heq⟩ := ih t1 e he
        exact ⟨t0, seg2, t2, List.mem_cons_of_mem seg hmem, heq⟩
      | some e1 =>
        rw [processResult_cons_some r w0 t seg rest t1 e1 hps] at he
        rcases List.mem_cons.mp he with rfl | hmem
        · exact ⟨t, seg, t1, List.mem_cons_self seg rest, hps⟩
        · obtain ⟨t0, seg2, t3, hmem2, heq⟩ := ih t1 e hmem
          exact ⟨t0, seg2, t3, List.mem_cons_of_mem seg hmem2, heq⟩

theorem processSegment_some_shape (r w0 t : ℚ) (seg : Segment) (t1 : ℚ) (e : Emission)
    (h : processSegment r w0 t seg = (t1, some e)) :
    e.words ≠ [] ∧
    e.start = (e.words.headD default).start ∧
    e.end_ = (e.words.getLastD default).end_ ∧
    e.text = pyStrip (String.intercalate " " (e.words.map EmittedWord.text)) ∧
    e.absolute_start = r + e.start ∧ e.absolute_end = r + e.end_ := by
  by_cases hw : seg.words = []
  · by_cases hend : w0 + max 0 seg.end_ ≤ t + 0.02
    · rw [processSegment_nil_skip r w0 t seg hw hend] at h
      simp at h
    · rw [processSegment_nil_emit r w0 t seg hw hend] at h
      rw [Prod.mk.injEq, Option.some.injEq] at h
      rw [← h.2]
      refine ⟨by simp, by simp, by simp, by simp, by simp, by simp⟩
  · cases hnw : (collectNewWords w0 t seg.words).1 with
    | nil =>
      rw [processSegment_words_skip r w0 t seg hw hnw] at h
      simp at h
    | cons ww rest =>
      rw [processSegment_words_emit r w0 t seg hw ww rest hnw] at h
      rw [Prod.mk.injEq, Option.some.injEq] at h
      rw [← h.2]
      refine ⟨by simp, by simp, ?_, by simp, by simp, by simp⟩
      cases rest with
      | nil => simp
      | cons y l =>
        cases hgl : (y :: l).getLast? with
        | none => simp at hgl
        | some z => simp [List.getLast?_cons_cons, hgl]

theorem processSegment_fallback_shape (r w0 t : ℚ) (seg : Segment) (t1 : ℚ) (e : Emission)
    (hw : seg.words = []) (h : processSegment r w0 t seg = (t1, some e)) :
    e.words = [⟨pyStrip seg.text, w0 + max 0 seg.start, w0 + max 0 seg.end_, none⟩] ∧
    t1 = max t (w0 + max 0 seg.end_) := by
  by_cases hend : w0 + max 0 seg.end_ ≤ t + 0.02
  · rw [processSegment_nil_skip r w0 t seg hw hend] at h
    simp at h
  · rw [processSegment_nil_emit r w0 t seg hw hend] at h
    rw [Prod.mk.injEq, Option.some.injEq] at h
    exact ⟨by rw [← h.2], h.1.symm⟩

theorem RingBuffer.capacity_appendAll :
    ∀ (ds : List (List ℚ)) (rb : RingBuffer), (rb.appendAll ds).capacity = rb.capacity := by
  intro ds
  induction ds with
  | nil => intro rb; rfl
  | cons d ds ih =>
    intro rb
    rw [RingBuffer.appendAll, ih, rb.capacity_append]

theorem audio_callback_full (q : List (List ℚ)) (b : List ℚ)
    (h : audioQueueMaxsize ≤ q.length) : audio_callback q b = q := by
  rw [audio_callback, if_pos h]

theorem captureBlocks_stall :
    ∀ (blocks : List (List ℚ)) (q : List (List ℚ)), q.length ≤ audioQueueMaxsize →
    captureBlocks q blocks = q ++ blocks.take (audioQueueMaxsize - q.length) := by
  intro blocks
  induction blocks with
  | nil => intro q _; simp [captureBlocks]
  | cons b bs ih =>
    intro q h
    rw [captureBlocks, List.foldl_cons]
    by_cases hf : audioQueueMaxsize ≤ q.length
    · have hq : q.length = audioQueueMaxsize := le_antisymm h hf
      rw [audio_callback_full q b hf]
      have := ih q h
      rw [captureBlocks] at this
      rw [this, hq, Nat.sub_self, List.take_zero, List.take_zero]
    · push_neg at hf
      rw [audio_callback, if_neg (not_le.mpr hf)]
      have h2 : (q ++ [b]).length ≤ audioQueueMaxsize := by
        simp [List.length_append]
        omega
      have := ih (q ++ [b]) h2
      rw [captureBlocks] at this
      rw [this]
      have h3 : audioQueueMaxsize - q.length = (audioQueueMaxsize - (q ++ [b]).length) + 1 := by
        simp [List.length_append]
        omega
      rw [h3, List.take_succ_cons, List.append_assoc, List.singleton_append]

theorem queueFold_sublist :
    ∀ (evs : List QEvent) (q out acc : List (List ℚ)), (out ++ q).Sublist acc →
    ((evs.foldl queueStep (q, out)).2 ++ (evs.foldl queueStep (q, out)).1).Sublist
      (acc ++ arrivals evs) := by
  intro evs
  induction evs with
  | nil =>
    intro q out acc h
    simpa [arrivals] using h
  | cons ev evs ih =>
    intro q out acc h
    cases ev with
    | arrive b =>
      have hstep : queueStep (q, out) (QEvent.arrive b) = (audio_callback q b, out) := rfl
      have harr : arrivals (QEvent.arrive b :: evs) = b :: arrivals evs := by
        simp [arrivals]
      rw [List.foldl_cons, hstep, harr,
        show acc ++ b :: arrivals evs = (acc ++ [b]) ++ arrivals evs by simp]
      apply ih
      by_cases hf : audioQueueMaxsize ≤ q.length
      · rw [audio_callback_full q b hf]
        exact h.trans (List.sublist_append_left acc [b])
      · rw [audio_callback, if_neg hf, ← List.append_assoc]
        exact h.append_right [b]
    | consume =>
      have harr : arrivals (QEvent.consume :: evs) = arrivals evs := by
        simp [arrivals]
      rw [List.foldl_cons, harr]
      cases q with
      | nil =>
        have hstep : queueStep ([], out) QEvent.consume = ([], out) := rfl
        rw [hstep]
        exact ih [] out acc h
      | cons x rest =>
        have hstep : queueStep (x :: rest, out) QEvent.consume = (rest, out ++ [x]) := rfl
        rw [hstep]
        apply ih
        rw [List.append_assoc, List.singleton_append]
        exact h

/-- Claim C4: for every sequence of appends whose total length is at most the
capacity, the buffer's size is the total number of appended samples, and
`get_last k` (the code's `get_last`, the spec's `read_last`) returns exactly
the last `min k size` appended samples in temporal order — the last `k` for
`k ≤ size`, everything for larger `k`, and the empty sequence on an empty
buffer. -/
theorem claim_C4 (cap : Nat) (ds : List (List ℚ)) (k : Nat) (hcap : 0 < cap)
    (hlen : ds.flatten.length ≤ cap) :
    ((RingBuffer.new cap).appendAll ds).size = ds.flatten.length ∧
    ((RingBuffer.new cap).appendAll ds).get_last k
      = lastN ds.flatten (min k ds.flatten.length) := by
  have habs := RingBuffer.appendAll_abstracts ds (RingBuffer.new cap) []
    (RingBuffer.abstracts_new cap hcap)
  rw [List.nil_append] at habs
  have hcapall : ((RingBuffer.new cap).appendAll ds).capacity = cap :=
    RingBuffer.capacity_appendAll ds (RingBuffer.new cap)
  have hsize := habs.2.1
  rw [hcapall] at hsize
  have hsz : ((RingBuffer.new cap).appendAll ds).size = ds.flatten.length := by omega
  refine ⟨hsz, ?_⟩
  rw [RingBuffer.get_last_abstracts _ _ habs k, lastN, hsz]

/-- Witness for C4, at capacity 3 with appends `[1, 2]` then `[3]`. -/
theorem claim_C4_witness :
    ((RingBuffer.new 3).appendAll [[1, 2], [3]]).size = 3 ∧
    ((RingBuffer.new 3).appendAll [[1, 2], [3]]).get_last 2
      = lastN ([[1, 2], [3]] : List (List ℚ)).flatten (min 2 3) := by
  have h := claim_C4 3 [[1, 2], [3]] 2 (by decide) (by decide)
  exact ⟨h.1, h.2⟩

/-- Claim C5: for every sequence of appends whose total length exceeds the
capacity, the buffer holds exactly the most recent `capacity` samples in
temporal order: its size is `capacity` and `get_last k` returns the last
`min k capacity` samples of the append history (in particular a single
append of length ≥ capacity replaces the contents with the input's last
`capacity` samples). -/
theorem claim_C5 (cap : Nat) (ds : List (List ℚ)) (hcap : 0 < cap)
    (hlen : cap < ds.flatten.length) :
    ((RingBuffer.new cap).appendAll ds).size = cap ∧
    ∀ k, ((RingBuffer.new cap).appendAll ds).get_last k
      = lastN ds.flatten (min k cap) := by
  have habs := RingBuffer.appendAll_abstracts ds (RingBuffer.new cap) []
    (RingBuffer.abstracts_new cap hcap)
  rw [List.nil_append] at habs
  have hcapall : ((RingBuffer.new cap).appendAll ds).capacity = cap :=
    RingBuffer.capacity_appendAll ds (RingBuffer.new cap)
  have hsize := habs.2.1
  rw [hcapall] at hsize
  have hsz : ((RingBuffer.new cap).appendAll ds).size = cap := by omega
  refine ⟨hsz, fun k => ?_⟩
  rw [RingBuffer.get_last_abstracts _ _ habs k, lastN, hsz]

/-- Witness for C5: capacity 2, one oversized append `[1, 2, 3]`. -/
theorem claim_C5_witness :
    ((RingBuffer.new 2).appendAll [[1, 2, 3]]).size = 2 ∧
    ((RingBuffer.new 2).appendAll [[1, 2, 3]]).get_last 2
      = lastN ([[1, 2, 3]] : List (List ℚ)).flatten (min 2 2) := by
  have h := claim_C5 2 [[1, 2, 3]] (by decide) (by decide)
  exact ⟨h.1, h.2 2⟩

/-- Claim C2: `last_emitted_time` is monotonically non-decreasing — both
across a single Dedup Emitter invocation (any segments, with or without
word-level offsets, any `window_start_abs_sec`) and across any sequence of
invocations. -/
theorem claim_C2 (r : ℚ) :
    (∀ (w0 t : ℚ) (segs : List Segment), t ≤ (processResult r w0 t segs).1) ∧
    (∀ (t : ℚ) (calls : List (ℚ × List Segment)),
      t ≤ calls.foldl (fun s c => (processResult r c.1 s c.2).1) t) := by
  refine ⟨fun w0 t segs => processResult_fst_mono r w0 segs t, ?_⟩
  intro t calls
  induction calls generalizing t with
  | nil => exact le_refl t
  | cons c cs ih =>
    rw [List.foldl_cons]
    exact le_trans (processResult_fst_mono r c.1 c.2 t) (ih _)

/-- Claim C3: dedup is idempotent at the call boundary — re-processing the
same inference result from the state it produced yields no new emissions and
leaves `last_emitted_time` unchanged. -/
theorem claim_C3 (r w0 t : ℚ) (segs : List Segment) :
    processResult r w0 (processResult r w0 t segs).1 segs
      = ((processResult r w0 t segs).1, []) :=
  processResult_absorb r w0 segs t _ (le_refl _)

/-- Claim C1: (i) in a segment with word-level offsets, a word is discarded
exactly when its session-relative end `w0 + end` is ≤ `last_emitted_time +
0.02`; the survivors are emitted once each, in order; (ii) every word emitted
by an invocation ends strictly after `last_emitted_time + 0.02` (so a word at
or before the prior `last_emitted_time` is never re-emitted) and at or before
the updated `last_emitted_time`; (iii) the spec's scenario: a first call with
words ending at `[2, 4, 6]` emits all three and sets `last_emitted_time = 6`;
a second call (window start 2s) with words ending at `[4, 6, 8]` emits only
the word ending at 8 and sets `last_emitted_time = 8`. -/
theorem claim_C1 :
    (∀ (w0 t : ℚ) (ws : List SegWord),
      (collectNewWords w0 t ws).1
        = ((ws.filter fun w => !decide (w0 + w.end_ ≤ t + 0.02)).map (emitWord w0))) ∧
    (∀ (r w0 t : ℚ) (segs : List Segment) (e : Emission) (x : EmittedWord),
      e ∈ (processResult r w0 t segs).2 → x ∈ e.words →
      t + 0.02 < x.end_ ∧ x.end_ ≤ (processResult r w0 t segs).1) ∧
    (processResult 0 0 0
        [⟨0, 6.5, "a b c", [⟨"a", 1, 2, none⟩, ⟨"b", 3, 4, none⟩, ⟨"c", 5, 6, none⟩]⟩]
      = (6, [{ text := "a b c", start := 1, end_ := 6, absolute_start := 1,
               absolute_end := 6,
               words := [⟨"a", 1, 2, none⟩, ⟨"b", 3, 4, none⟩, ⟨"c", 5, 6, none⟩] }])) ∧
    (processResult 0 2 6
        [⟨0, 6.5, "b c d", [⟨"b", 1, 2, none⟩, ⟨"c", 3, 4, none⟩, ⟨"d", 5, 6, none⟩]⟩]
      = (8, [{ text := "d", start := 7, end_ := 8, absolute_start := 7, absolute_end := 8,
               words := [⟨"d", 7, 8, none⟩] }])) := by
  refine ⟨?_, ?_, ?_, ?_⟩
  · intro w0 t ws
    rw [collectNewWords, collectGo_fst w0 t ws [] t, List.nil_append]
  · intro r w0 t segs e x he hx
    exact processResult_mem_bound r w0 segs t e he x hx
  · norm_num [processResult, processSegment, collectNewWords, collectGo]
    decide
  · norm_num [processResult, processSegment, collectNewWords, collectGo]
    decide

/-- Witness for C1: the never-re-emitted bound, instantiated at the second
call of the scenario (the word ending at 8 is strictly after the prior
`last_emitted_time + 0.02 = 6.02` and bounded by the new value 8). -/
theorem claim_C1_witness :
    (6 : ℚ) + 0.02 < (8 : ℚ) ∧
    (8 : ℚ) ≤ (processResult 0 2 6
      [⟨0, 6.5, "b c d", [⟨"b", 1, 2, none⟩, ⟨"c", 3, 4, none⟩, ⟨"d", 5, 6, none⟩]⟩]).1 := by
  have hsc := claim_C1.2.2.2
  have h := claim_C1.2.1 0 2 6
      [⟨0, 6.5, "b c d", [⟨"b", 1, 2, none⟩, ⟨"c", 3, 4, none⟩, ⟨"d", 5, 6, none⟩]⟩]
      { text := "d", start := 7, end_ := 8, absolute_start := 7, absolute_end := 8,
        words := [⟨"d", 7, 8, none⟩] }
      ⟨"d", 7, 8, none⟩
      (by rw [hsc]; exact List.mem_cons_self _ _)
      (List.mem_cons_self _ _)
  exact ⟨h.1, h.2⟩

/-- Counterexample to C1 as stated: the claim also asserts that words ending
strictly after the prior `last_emitted_time` are emitted exactly once, but a
word ending at `6.01` — strictly after a `last_emitted_time` of `6` — falls
inside the `0.02` tolerance and is emitted zero times (the invocation yields
no emissions and leaves the state at 6). -/
theorem claim_C1_counterexample :
    processResult 0 0 6 [⟨0, 6.5, "x", [⟨"x", 6, 6.01, none⟩]⟩] = (6, []) := by
  norm_num [processResult, processSegment, collectNewWords, collectGo]

/-- Claim C10: every emission has a non-empty `words` list; its `start` is the
first word's start, its `end` the last word's end, its `text` the words'
texts joined by single spaces and stripped, and its absolute times are the
session start plus the relative times.  When the engine supplies no
word-level offsets (fallback), the list holds exactly one entry whose text is
the stripped segment text spanning the whole (clamped) segment. -/
theorem claim_C10 :
    (∀ (r w0 t : ℚ) (segs : List Segment) (e : Emission),
      e ∈ (processResult r w0 t segs).2 →
      e.words ≠ [] ∧
      e.start = (e.words.headD default).start ∧
      e.end_ = (e.words.getLastD default).end_ ∧
      e.text = pyStrip (String.intercalate " " (e.words.map EmittedWord.text)) ∧
      e.absolute_start = r + e.start ∧ e.absolute_end = r + e.end_) ∧
    (∀ (r w0 t : ℚ) (seg : Segment) (t1 : ℚ) (e : Emission), seg.words = [] →
      processSegment r w0 t seg = (t1, some e) →
      e.words = [⟨pyStrip seg.text, w0 + max 0 seg.start, w0 + max 0 seg.end_, none⟩]) := by
  constructor
  · intro r w0 t segs e he
    obtain ⟨t0, seg, t1, _, heq⟩ := processResult_mem_shape r w0 segs t e he
    exact processSegment_some_shape r w0 t0 seg t1 e heq
  · intro r w0 t seg t1 e hw h
    exact (processSegment_fallback_shape r w0 t seg t1 e hw h).1

/-- Witness for C10: the fallback clause at a concrete wordless segment. -/
theorem claim_C10_witness :
    ({ text := "hi there", start := 1.5, end_ := 3, absolute_start := 4.5, absolute_end := 6,
       words := [⟨"hi there", 1.5, 3, none⟩] } : Emission).words
      = [⟨pyStrip "  hi there ", 1 + max 0 0.5, 1 + max 0 2, none⟩] := by
  refine claim_C10.2 3 1 0 ⟨0.5, 2, "  hi there ", []⟩ 3 _ rfl ?_
  norm_num [processSegment]
  decide

/-- Claim C8: an inference-loop iteration with audio shorter than half the
requested window (`len(audio) < window // 2`) is skipped — state unchanged,
nothing emitted, and the engine never consulted (the result does not depend
on the engine at all); otherwise the segments are processed with
`window_start_abs_sec = max(0, (samples_written - len(audio)) / sample_rate)`,
`samples_written` being the snapshot taken before the buffer read. -/
theorem claim_C8 (engine : Engine) (cfg : LiveConfig) (r t : ℚ) (sw : Nat)
    (audio : List ℚ) :
    (audio.length < windowSamples cfg / 2 →
      ∀ engine2 : Engine, transcriberIteration engine2 cfg r t sw audio = (t, [])) ∧
    (¬ audio.length < windowSamples cfg / 2 →
      ∀ segs : List Segment, runInference engine cfg audio = some segs →
      transcriberIteration engine cfg r t sw audio
        = processResult r (max 0 (((sw : ℚ) - (audio.length : ℚ)) / (cfg.sample_rate : ℚ)))
            t segs) := by
  constructor
  · intro h engine2
    rw [transcriberIteration, if_pos h]
  · intro h segs hrun
    rw [transcriberIteration, if_neg h, hrun]
    rfl

/-- Witness for C8: window of 4 samples (1s at 4Hz), skip at 1 sample of
audio, and the window-start formula at 3 samples of audio after 5 written. -/
theorem claim_C8_witness :
    transcriberIteration (fun _ _ => Except.ok []) ⟨none, 1, true, 1, 2, 4, true, 0.6, 0⟩
        0 0 5 [0] = (0, []) ∧
    transcriberIteration (fun _ _ => Except.ok []) ⟨none, 1, true, 1, 2, 4, true, 0.6, 0⟩
        0 0 5 [0, 0, 0]
      = processResult 0 (max 0 (((5 : ℚ) - (3 : ℚ)) / (4 : ℚ))) 0 [] := by
  constructor
  · exact (claim_C8 (fun _ _ => Except.ok []) ⟨none, 1, true, 1, 2, 4, true, 0.6, 0⟩
      0 0 5 [0]).1 (by norm_num [windowSamples]; decide) _
  · have h := (claim_C8 (fun _ _ => Except.ok []) ⟨none, 1, true, 1, 2, 4, true, 0.6, 0⟩
      0 0 5 [0, 0, 0]).2 (by norm_num [windowSamples]; decide) [] rfl
    simpa using h

/-- Claim C7: if the full-kwarg engine call raises `TypeError`, the call is
retried exactly once with the reduced kwarg set (the full set minus
`no_speech_threshold` and `condition_on_previous_text`) and that result is
used; if the retry also fails, or the first call fails with any other
exception, the iteration is skipped with the dedup state unchanged and no
emission — the iteration is a total function, so no inference failure
escapes the thread. -/
theorem claim_C7 (engine : Engine) (cfg : LiveConfig) (r t : ℚ) (sw : Nat)
    (audio : List ℚ) (hlen : ¬ audio.length < windowSamples cfg / 2) :
    (reducedArgs cfg = { fullArgs cfg with no_speech_threshold := none, condition_on_previous_text := none }) ∧
    (∀ segs : List Segment,
      engine audio (fullArgs cfg) = .error .typeErr →
      engine audio (reducedArgs cfg) = .ok segs →
      transcriberIteration engine cfg r t sw audio
        = processResult r (windowStartAbsSec sw audio.length cfg.sample_rate) t segs) ∧
    (∀ err : TranscribeFailure,
      engine audio (fullArgs cfg) = .error .typeErr →
      engine audio (reducedArgs cfg) = .error err →
      transcriberIteration engine cfg r t sw audio = (t, [])) ∧
    (engine audio (fullArgs cfg) = .error .otherErr →
      transcriberIteration engine cfg r t sw audio = (t, [])) := by
  refine ⟨rfl, ?_, ?_, ?_⟩
  · intro segs h1 h2
    rw [transcriberIteration, if_neg hlen, runInference, h1, h2]
  · intro err h1 h2
    rw [transcriberIteration, if_neg hlen, runInference, h1, h2]
  · intro h1
    rw [transcriberIteration, if_neg hlen, runInference, h1]

/-- Witness for C7: an engine that rejects `no_speech_threshold` with a
`TypeError` but accepts the reduced set, and an engine that always fails with
a non-`TypeError`. -/
theorem claim_C7_witness :
    transcriberIteration (fun _ args => if args.no_speech_threshold.isSome
        then Except.error TranscribeFailure.typeErr else Except.ok [])
      ⟨none, 1, true, 1, 2, 4, true, 0.6, 0⟩ 0 0 5 [0, 0, 0]
      = processResult 0 (windowStartAbsSec 5 3 4) 0 [] ∧
    transcriberIteration (fun _ _ => Except.error TranscribeFailure.otherErr)
      ⟨none, 1, true, 1, 2, 4, true, 0.6, 0⟩ 0 0 5 [0, 0, 0] = (0, []) := by
  constructor
  · have h := (claim_C7 (fun _ args => if args.no_speech_threshold.isSome
        then Except.error TranscribeFailure.typeErr else Except.ok [])
      ⟨none, 1, true, 1, 2, 4, true, 0.6, 0⟩ 0 0 5 [0, 0, 0]
      (by norm_num [windowSamples]; decide)).2.1 [] rfl rfl
    simpa using h
  · exact (claim_C7 (fun _ _ => Except.error TranscribeFailure.otherErr)
      ⟨none, 1, true, 1, 2, 4, true, 0.6, 0⟩ 0 0 5 [0, 0, 0]
      (by norm_num [windowSamples]; decide)).2.2.2 rfl

/-- Claim C9: a block offered to a full hand-off queue (capacity 50) is
silently dropped — the callback is a total function returning the queue
unchanged; with a stalled consumer the queue retains exactly the first
`50 - qsize` arriving blocks in order; and over any interleaving of arrivals
and consumptions, what the consumer has received followed by what is still
queued is an order-preserving selection (sublist) of the arrivals — the
consumer only ever sees non-dropped blocks, in original order. -/
theorem claim_C9 :
    (∀ (q : List (List ℚ)) (b : List ℚ), audioQueueMaxsize ≤ q.length →
      audio_callback q b = q) ∧
    (∀ q : List (List ℚ), q.length ≤ audioQueueMaxsize → ∀ blocks : List (List ℚ),
      captureBlocks q blocks = q ++ blocks.take (audioQueueMaxsize - q.length)) ∧
    (∀ evs : List QEvent,
      ((queueRun evs).2 ++ (queueRun evs).1).Sublist (arrivals evs)) := by
  refine ⟨fun q b h => audio_callback_full q b h, ?_, ?_⟩
  · intro q h blocks
    exact captureBlocks_stall blocks q h
  · intro evs
    have h := queueFold_sublist evs [] [] [] (by simp)
    simpa [queueRun] using h

/-- Witness for C9: a full queue of 50 blocks drops the new block; a stalled
consumer starting empty retains the first arrivals. -/
theorem claim_C9_witness :
    audio_callback (List.replicate 50 ([] : List ℚ)) [1] = List.replicate 50 [] ∧
    captureBlocks [] [[1], [2]]
      = [] ++ ([[1], [2]] : List (List ℚ)).take (audioQueueMaxsize - 0) := by
  constructor
  · exact claim_C9.1 _ _ (by decide)
  · exact claim_C9.2.1 [] (by decide) [[1], [2]]

/-- Claim C6 concerns `_audio_writer` (live.py lines 166–176), which has NO
try/except around the wav write — contrary to the claim, a failing disk
write escapes the drain loop and kills the writer thread.  Evaluated at a
failing write over blocks `[[1], [2]]`: the exception escapes (flag `true`),
the second block never reaches the ring buffer and `_samples_written` stays
0; with a succeeding write the same run buffers both blocks. -/
theorem claim_C6_code_divergence :
    (audioWriterRun (fun _ => Except.error "disk full")
        ⟨RingBuffer.new 4, true, 0⟩ [[1], [2]]).2 = true ∧
    (audioWriterRun (fun _ => Except.error "disk full")
        ⟨RingBuffer.new 4, true, 0⟩ [[1], [2]]).1.ring.get_last 4 = [1] ∧
    (audioWriterRun (fun _ => Except.error "disk full")
        ⟨RingBuffer.new 4, true, 0⟩ [[1], [2]]).1.samples_written = 0 ∧
    (audioWriterRun (fun _ => Except.ok ())
        ⟨RingBuffer.new 4, true, 0⟩ [[1], [2]]).1.ring.get_last 4 = [1, 2] ∧
    (audioWriterRun (fun _ => Except.ok ())
        ⟨RingBuffer.new 4, true, 0⟩ [[1], [2]]).2 = false := by
  refine ⟨by decide, by decide, by decide, by decide, by decide⟩

end WhisperLive
